import Mathlib

/-!
Verification of the `arg_fn` crate (`src/lib.rs`), a minimal command-line
argument dispatch library.  A `Parser` owns a configuration value, a table
mapping argument strings to callbacks that mutate the configuration, and a
fallback callback invoked on unregistered tokens.  Rust's in-place mutation
`Fn(&mut Config)` is modelled by pure state-passing functions `C → C`, and
the `HashMap<Cow<str>, Box<dyn Fn(&mut Config)>>` by an association list
kept duplicate-free by insertion (insert erases the previous entry for the
key, matching `HashMap::insert`), looked up by exact string equality.
-/

/-- The registration table: model of the crate's
`HashMap<Cow<str>, Box<dyn Fn(&mut Config)>>` field. -/
abbrev ArgTable (C : Type) := List (String × (C → C))

/-- Remove every entry for key `k` (at most one exists after insertions). -/
def eraseKey {C : Type} (k : String) (args : ArgTable C) : ArgTable C :=
  args.filter (fun e => e.1 != k)

/-- Model of `HashMap::insert`: the new binding replaces any old one. -/
def insertArg {C : Type} (args : ArgTable C) (k : String) (f : C → C) :
    ArgTable C :=
  (k, f) :: eraseKey k args

/-- Model of `HashMap::get`: look up a key by exact string equality. -/
def getArg {C : Type} (args : ArgTable C) (k : String) : Option (C → C) :=
  (args.find? (fun e => e.1 == k)).map Prod.snd

/-- The `Parser` struct of `src/lib.rs`: a configuration value, the
registration table, and the fallback callback `unknown`. -/
structure Parser (C : Type) where
  config : C
  arguments : ArgTable C
  unknown : C → String → C

/-- `Parser::new`: initial configuration, empty table, given fallback. -/
def Parser.new {C : Type} (config : C) (unknown : C → String → C) :
    Parser C :=
  ⟨config, [], unknown⟩

/-- `Parser::with_arguments`: like `new` but with a pre-built table,
used as-is. -/
def Parser.with_arguments {C : Type} (config : C) (arguments : ArgTable C)
    (unknown : C → String → C) : Parser C :=
  ⟨config, arguments, unknown⟩

/-- `Parser::arg`: fluent registration, overwriting the key's entry. -/
def Parser.arg {C : Type} (p : Parser C) (argument : String)
    (callback : C → C) : Parser C :=
  { p with arguments := insertArg p.arguments argument callback }

/-- One iteration of the loop body of `Parser::parse`: look the token up;
if registered, apply the matched callback to the configuration alone,
otherwise apply the fallback to the configuration and the token. -/
def parseStep {C : Type} (arguments : ArgTable C)
    (unknown : C → String → C) (config : C) (arg : String) : C :=
  match getArg arguments arg with
  | some callback => callback config
  | none => unknown config arg

/-- `Parser::parse`: fold the loop body over the input tokens in order and
return the final configuration. -/
def Parser.parse {C : Type} (p : Parser C) (input : List String) : C :=
  input.foldl (parseStep p.arguments p.unknown) p.config

/-- `impl Default for Parser`: the default configuration together with a
no-op fallback (`|_, _| {}`). -/
def Parser.default (C : Type) [Inhabited C] : Parser C :=
  Parser.new (Inhabited.default : C) (fun config _ => config)

/-- The configuration type of the crate's documentation example. -/
structure Config where
  foo : Bool
  bar : Bool
deriving DecidableEq

/-- The parser of the crate's documentation example. -/
def exampleParser : Parser Config :=
  ((((Parser.new { foo := false, bar := false } (fun cfg _ => cfg)).arg
      "-foo" (fun cfg => { cfg with foo := true })).arg
      "-nofoo" (fun cfg => { cfg with foo := false })).arg
      "-bar" (fun cfg => { cfg with bar := true })).arg
      "-nobar" (fun cfg => { cfg with bar := false })

/-- Observable record of one callback invocation performed by `parse`:
which callback fired, the token that triggered it, and the configuration
before and after the call. -/
inductive Event (C : Type) where
  | matched (token : String) (before after : C)
  | fallback (token : String) (before after : C)
deriving DecidableEq

/-- The token that triggered the invocation. -/
def Event.token {C : Type} : Event C → String
  | .matched t _ _ => t
  | .fallback t _ _ => t

/-- The configuration passed to the callback. -/
def Event.before {C : Type} : Event C → C
  | .matched _ b _ => b
  | .fallback _ b _ => b

/-- The configuration after the callback returned. -/
def Event.after {C : Type} : Event C → C
  | .matched _ _ a => a
  | .fallback _ _ a => a

/-- The invocation record produced by one loop iteration of `parse`. -/
def mkEvent {C : Type} (arguments : ArgTable C)
    (unknown : C → String → C) (config : C) (arg : String) : Event C :=
  match getArg arguments arg with
  | some callback => .matched arg config (callback config)
  | none => .fallback arg config (unknown config arg)

/-- `parse` instrumented with the list of callback invocations it makes,
in the order it makes them. -/
def parseTraceAux {C : Type} (arguments : ArgTable C)
    (unknown : C → String → C) : C → List String → C × List (Event C)
  | config, [] => (config, [])
  | config, arg :: rest =>
    let r := parseTraceAux arguments unknown
      (parseStep arguments unknown config arg) rest
    (r.1, mkEvent arguments unknown config arg :: r.2)

/-- The instrumented run of `Parser::parse`. -/
def Parser.parseTrace {C : Type} (p : Parser C) (input : List String) :
    C × List (Event C) :=
  parseTraceAux p.arguments p.unknown p.config input

/-- The invocations thread the configuration sequentially: each one starts
from the configuration the previous one produced. -/
def eventsChain {C : Type} : C → List (Event C) → Prop
  | _, [] => True
  | c, e :: es => e.before = c ∧ eventsChain e.after es

/-- Register a list of bindings one by one through the fluent `arg` API. -/
def applyArgs {C : Type} (p : Parser C)
    (entries : List (String × (C → C))) : Parser C :=
  entries.foldl (fun q e => q.arg e.1 e.2) p

/-- The configuration reached after dispatching the first `i` tokens. -/
def cfgAt {C : Type} (p : Parser C) (input : List String) (i : Nat) : C :=
  (input.take i).foldl (parseStep p.arguments p.unknown) p.config

/-- Concrete fixture: counts the length of unknown tokens, and one
registered argument. -/
def sampleParser : Parser Nat :=
  (Parser.new 0 (fun config arg => config + arg.length)).arg
    "-a" (fun config => config + 10)

/-- A fallback that leaves the configuration unchanged. -/
def noopUnknown : Nat → String → Nat :=
  fun config _ => config

/-- A two-entry table with distinct keys, in one order. -/
def tableAB : ArgTable Nat :=
  [("a", fun n => n + 1), ("b", fun n => n * 2)]

/-- The same two bindings as `tableAB`, listed in the other order. -/
def tableBA : ArgTable Nat :=
  [("b", fun n => n * 2), ("a", fun n => n + 1)]

/-- Extra fluent bindings layered on top of `tableAB`. -/
def tableExtra : ArgTable Nat :=
  [("a", fun n => n + 7)]

/-- A parser built from `tableAB`. -/
def parserAB : Parser Nat :=
  Parser.with_arguments 0 tableAB noopUnknown

/-- A parser built from `tableBA`. -/
def parserBA : Parser Nat :=
  Parser.with_arguments 0 tableBA noopUnknown

/-- A concrete callback used by witness statements. -/
def bumpFive : Nat → Nat :=
  fun n => n + 5

theorem mkEvent_token {C : Type} (arguments : ArgTable C)
    (unknown : C → String → C) (config : C) (arg : String) :
    (mkEvent arguments unknown config arg).token = arg := by
  unfold mkEvent
  cases getArg arguments arg <;> rfl

theorem mkEvent_before {C : Type} (arguments : ArgTable C)
    (unknown : C → String → C) (config : C) (arg : String) :
    (mkEvent arguments unknown config arg).before = config := by
  unfold mkEvent
  cases getArg arguments arg <;> rfl

theorem mkEvent_after {C : Type} (arguments : ArgTable C)
    (unknown : C → String → C) (config : C) (arg : String) :
    (mkEvent arguments unknown config arg).after =
      parseStep arguments unknown config arg := by
  unfold mkEvent parseStep
  cases getArg arguments arg <;> rfl

theorem parseTraceAux_fst {C : Type} (arguments : ArgTable C)
    (unknown : C → String → C) (input : List String) (config : C) :
    (parseTraceAux arguments unknown config input).1 =
      input.foldl (parseStep arguments unknown) config := by
  induction input generalizing config with
  | nil => rfl
  | cons a rest ih => simp [parseTraceAux, List.foldl, ih]

theorem parseTraceAux_length {C : Type} (arguments : ArgTable C)
    (unknown : C → String → C) (input : List String) (config : C) :
    (parseTraceAux arguments unknown config input).2.length =
      input.length := by
  induction input generalizing config with
  | nil => rfl
  | cons a rest ih => simp [parseTraceAux, ih]

theorem parseTraceAux_map_token {C : Type} (arguments : ArgTable C)
    (unknown : C → String → C) (input : List String) (config : C) :
    (parseTraceAux arguments unknown config input).2.map Event.token =
      input := by
  induction input generalizing config with
  | nil => rfl
  | cons a rest ih => simp [parseTraceAux, mkEvent_token, ih]

theorem parseTraceAux_chain {C : Type} (arguments : ArgTable C)
    (unknown : C → String → C) (input : List String) (config : C) :
    eventsChain config (parseTraceAux arguments unknown config input).2 := by
  induction input generalizing config with
  | nil => trivial
  | cons a rest ih =>
    refine ⟨mkEvent_before arguments unknown config a, ?_⟩
    rw [mkEvent_after]
    exact ih (parseStep arguments unknown config a)

theorem parseTraceAux_get? {C : Type} (arguments : ArgTable C)
    (unknown : C → String → C) (input : List String) (config : C)
    (i : Nat) (t : String) (h : input.get? i = some t) :
    (parseTraceAux arguments unknown config input).2.get? i =
      some (mkEvent arguments unknown
        ((input.take i).foldl (parseStep arguments unknown) config) t) := by
  induction input generalizing config i with
  | nil => simp [List.get?] at h
  | cons a rest ih =>
    cases i with
    | zero =>
      simp [List.get?] at h
      subst h
      rfl
    | succ j =>
      simp only [List.get?] at h
      simpa [parseTraceAux, List.take, List.foldl] using
        ih (parseStep arguments unknown config a) j h

theorem getArg_cons {C : Type} (a : String × (C → C)) (rest : ArgTable C)
    (q : String) :
    getArg (a :: rest) q = if a.1 = q then some a.2 else getArg rest q := by
  by_cases h : a.1 = q
  · simp [getArg, List.find?_cons, h]
  · simp [getArg, List.find?_cons, h]

theorem getArg_eraseKey {C : Type} (args : ArgTable C) {k q : String}
    (h : q ≠ k) : getArg (eraseKey k args) q = getArg args q := by
  induction args with
  | nil => rfl
  | cons a rest ih =>
    by_cases ha : a.1 = k
    · have hfil : eraseKey k (a :: rest) = eraseKey k rest := by
        simp [eraseKey, List.filter_cons, ha]
      rw [hfil, ih, getArg_cons, if_neg (fun haq => h (haq.symm.trans ha))]
    · have hfil : eraseKey k (a :: rest) = a :: eraseKey k rest := by
        simp [eraseKey, List.filter_cons, ha]
      rw [hfil, getArg_cons, getArg_cons, ih]

theorem getArg_insertArg {C : Type} (args : ArgTable C) (k : String)
    (f : C → C) (q : String) :
    getArg (insertArg args k f) q =
      if q = k then some f else getArg args q := by
  by_cases h : q = k
  · simp [insertArg, getArg_cons, h]
  · rw [insertArg, getArg_cons, if_neg (fun hk => h hk.symm),
      getArg_eraseKey _ h, if_neg h]

theorem getArg_eq_none {C : Type} {args : ArgTable C} {k : String}
    (h : k ∉ args.map Prod.fst) : getArg args k = none := by
  induction args with
  | nil => rfl
  | cons a rest ih =>
    simp only [List.map_cons, List.mem_cons, not_or] at h
    rw [getArg_cons, if_neg (fun he => h.1 he.symm)]
    exact ih h.2

theorem applyArgs_config {C : Type} (entries : List (String × (C → C)))
    (p : Parser C) : (applyArgs p entries).config = p.config := by
  induction entries generalizing p with
  | nil => rfl
  | cons e rest ih => simpa [applyArgs, List.foldl] using ih (p.arg e.1 e.2)

theorem applyArgs_unknown {C : Type} (entries : List (String × (C → C)))
    (p : Parser C) : (applyArgs p entries).unknown = p.unknown := by
  induction entries generalizing p with
  | nil => rfl
  | cons e rest ih => simpa [applyArgs, List.foldl] using ih (p.arg e.1 e.2)

theorem applyArgs_arguments {C : Type} (entries : List (String × (C → C)))
    (p : Parser C) :
    (applyArgs p entries).arguments =
      entries.foldl (fun a e => insertArg a e.1 e.2) p.arguments := by
  induction entries generalizing p with
  | nil => rfl
  | cons e rest ih => simpa [applyArgs, List.foldl] using ih (p.arg e.1 e.2)

theorem getArg_foldl_insert_congr {C : Type}
    (entries : List (String × (C → C))) {A B : ArgTable C}
    (h : ∀ k, getArg A k = getArg B k) (k : String) :
    getArg (entries.foldl (fun a e => insertArg a e.1 e.2) A) k =
      getArg (entries.foldl (fun a e => insertArg a e.1 e.2) B) k := by
  induction entries generalizing A B with
  | nil => exact h k
  | cons e rest ih =>
    simp only [List.foldl]
    exact ih (fun q => by
      rw [getArg_insertArg, getArg_insertArg]
      by_cases hq : q = e.1 <;> simp [hq, h q])

theorem getArg_foldl_insert_nodup {C : Type} (table : ArgTable C)
    (init : ArgTable C) (hnd : (table.map Prod.fst).Nodup) (k : String) :
    getArg (table.foldl (fun a e => insertArg a e.1 e.2) init) k =
      match getArg table k with
      | some f => some f
      | none => getArg init k := by
  induction table generalizing init with
  | nil => rfl
  | cons a rest ih =>
    simp only [List.map_cons, List.nodup_cons] at hnd
    obtain ⟨hna, hnd⟩ := hnd
    simp only [List.foldl]
    rw [ih _ hnd]
    by_cases hk : k = a.1
    · subst hk
      rw [getArg_eq_none hna, getArg_insertArg, if_pos rfl, getArg_cons,
        if_pos rfl]
    · rw [getArg_insertArg, if_neg hk, getArg_cons,
        if_neg (fun he => hk he.symm)]

theorem parse_congr {C : Type} (A B : ArgTable C) (u v : C → String → C)
    (hargs : ∀ k, getArg A k = getArg B k) (hu : ∀ c s, u c s = v c s)
    (input : List String) (config : C) :
    input.foldl (parseStep A u) config =
      input.foldl (parseStep B v) config := by
  induction input generalizing config with
  | nil => rfl
  | cons a rest ih =>
    have hstep : parseStep A u config a = parseStep B v config a := by
      unfold parseStep
      rw [hargs a]
      cases getArg B a with
      | none => exact hu config a
      | some f => rfl
    simp only [List.foldl, hstep]
    exact ih _

theorem foldl_parseStep_nil {C : Type} (input : List String) (c : C) :
    input.foldl (parseStep ([] : ArgTable C) (fun config _ => config)) c =
      c := by
  induction input generalizing c with
  | nil => rfl
  | cons a rest ih =>
    simp only [List.foldl]
    exact ih c

/-- C6: parsing the empty input returns the initial configuration. -/
theorem spec_c6_empty_input {C : Type} (p : Parser C) :
    p.parse [] = p.config := rfl

/-- C3: the crate's documentation example: dispatching
`["-bar", "-nofoo", "-foo", "-nobar", "-foo"]` over the four registrations
with config `{foo: false, bar: false}` yields `{foo: true, bar: false}`. -/
theorem spec_c3_doc_example :
    exampleParser.parse ["-bar", "-nofoo", "-foo", "-nobar", "-foo"] =
      { foo := true, bar := false } := by
  decide

theorem getArg_tableAB_eq (k : String) :
    getArg tableAB k = getArg tableBA k := by
  unfold tableAB tableBA
  rw [getArg_cons, getArg_cons, getArg_cons, getArg_cons]
  by_cases h1 : "a" = k
  · by_cases h2 : "b" = k
    · exact absurd (h1.trans h2.symm) (by decide)
    · rw [if_pos h1, if_neg h2, if_pos h1]
  · by_cases h2 : "b" = k
    · rw [if_neg h1, if_pos h2, if_pos h2]
    · rw [if_neg h1, if_neg h2, if_neg h2, if_neg h1]

/-- C1: each token is looked up in the table by exact string equality; a
registered token fires its matched callback on the configuration alone,
while an unregistered token fires the fallback on the configuration and
that exact token string, and the fallback fires only in that case. -/
theorem spec_c1_dispatch {C : Type} (p : Parser C) (input : List String)
    (i : Nat) (t : String) (h : input.get? i = some t) :
    (p.parseTrace input).2.get? i =
      some (match getArg p.arguments t with
        | some f => Event.matched t (cfgAt p input i) (f (cfgAt p input i))
        | none => Event.fallback t (cfgAt p input i)
            (p.unknown (cfgAt p input i) t)) :=
  parseTraceAux_get? p.arguments p.unknown input p.config i t h

/-- Witness for C1 at a concrete unregistered token. -/
theorem spec_c1_dispatch_witness :
    (sampleParser.parseTrace ["-x", "-a"]).2.get? 0 =
      some (Event.fallback "-x" 0 2) := by
  rw [spec_c1_dispatch sampleParser ["-x", "-a"] 0 "-x" rfl]
  decide

/-- C2: exactly one callback invocation occurs per input token, in input
order, and the invocations thread the configuration sequentially; the
traced final configuration is the parse result. -/
theorem spec_c2_once_per_token {C : Type} (p : Parser C)
    (input : List String) :
    (p.parseTrace input).2.length = input.length ∧
    (p.parseTrace input).2.map Event.token = input ∧
    eventsChain p.config (p.parseTrace input).2 ∧
    (p.parseTrace input).1 = p.parse input :=
  ⟨parseTraceAux_length p.arguments p.unknown input p.config,
   parseTraceAux_map_token p.arguments p.unknown input p.config,
   parseTraceAux_chain p.arguments p.unknown input p.config,
   parseTraceAux_fst p.arguments p.unknown input p.config⟩

/-- C4: registering the same key twice keeps only the later callback: the
resulting parser is the one with only the second registration, so any
subsequent parse only ever invokes the later callback for that key. -/
theorem spec_c4_last_wins {C : Type} (p : Parser C) (k : String)
    (f g : C → C) (input : List String) :
    (p.arg k f).arg k g = p.arg k g ∧
    ((p.arg k f).arg k g).parse input = (p.arg k g).parse input := by
  have htab : insertArg (insertArg p.arguments k f) k g =
      insertArg p.arguments k g := by
    simp [insertArg, eraseKey, List.filter_filter]
  have hp : (p.arg k f).arg k g = p.arg k g := by
    simp [Parser.arg, htab]
  exact ⟨hp, by rw [hp]⟩

/-- C5: building with `with_arguments` on a pre-built table and then
adding fluent `arg` bindings agrees with registering every binding via
`arg` alone on a `new` parser, in table-then-fluent order: same
configuration, same fallback, same lookups, and the same parse result. -/
theorem spec_c5_with_arguments_equiv {C : Type} (config : C)
    (table extra : List (String × (C → C))) (unknown : C → String → C)
    (hnd : (table.map Prod.fst).Nodup) (k : String)
    (input : List String) :
    (applyArgs (Parser.with_arguments config table unknown) extra).config =
      (applyArgs (Parser.new config unknown) (table ++ extra)).config ∧
    (applyArgs (Parser.with_arguments config table unknown)
        extra).unknown =
      (applyArgs (Parser.new config unknown) (table ++ extra)).unknown ∧
    getArg (applyArgs (Parser.with_arguments config table unknown)
        extra).arguments k =
      getArg (applyArgs (Parser.new config unknown)
        (table ++ extra)).arguments k ∧
    (applyArgs (Parser.with_arguments config table unknown) extra).parse
        input =
      (applyArgs (Parser.new config unknown) (table ++ extra)).parse
        input := by
  have hargs : ∀ q,
      getArg (applyArgs (Parser.with_arguments config table unknown)
        extra).arguments q =
      getArg (applyArgs (Parser.new config unknown)
        (table ++ extra)).arguments q := by
    intro q
    rw [applyArgs_arguments, applyArgs_arguments, List.foldl_append]
    apply getArg_foldl_insert_congr extra
    intro r
    rw [getArg_foldl_insert_nodup table _ hnd r]
    cases hr : getArg table r with
    | some f => exact hr
    | none => exact hr
  have hc :
      (applyArgs (Parser.with_arguments config table unknown)
        extra).config =
      (applyArgs (Parser.new config unknown) (table ++ extra)).config := by
    rw [applyArgs_config, applyArgs_config]
    rfl
  have hu : ∀ c s,
      (applyArgs (Parser.with_arguments config table unknown)
        extra).unknown c s =
      (applyArgs (Parser.new config unknown)
        (table ++ extra)).unknown c s := by
    intro c s
    rw [applyArgs_unknown, applyArgs_unknown]
    rfl
  refine ⟨hc, ?_, hargs k, ?_⟩
  · rw [applyArgs_unknown, applyArgs_unknown]
    rfl
  · unfold Parser.parse
    rw [hc]
    exact parse_congr _ _ _ _ hargs hu input _

/-- Witness for C5 on a concrete table and extra bindings. -/
theorem spec_c5_witness :
    (applyArgs (Parser.with_arguments 0 tableAB noopUnknown)
        tableExtra).config =
      (applyArgs (Parser.new 0 noopUnknown)
        (tableAB ++ tableExtra)).config ∧
    (applyArgs (Parser.with_arguments 0 tableAB noopUnknown)
        tableExtra).unknown =
      (applyArgs (Parser.new 0 noopUnknown)
        (tableAB ++ tableExtra)).unknown ∧
    getArg (applyArgs (Parser.with_arguments 0 tableAB noopUnknown)
        tableExtra).arguments "a" =
      getArg (applyArgs (Parser.new 0 noopUnknown)
        (tableAB ++ tableExtra)).arguments "a" ∧
    (applyArgs (Parser.with_arguments 0 tableAB noopUnknown)
        tableExtra).parse ["a", "b", "c"] =
      (applyArgs (Parser.new 0 noopUnknown)
        (tableAB ++ tableExtra)).parse ["a", "b", "c"] :=
  spec_c5_with_arguments_equiv 0 tableAB tableExtra noopUnknown
    (by decide) "a" ["a", "b", "c"]

/-- C7: the default parser is `new` applied to the default configuration
and a no-op fallback; it parses every input to the same configuration as
that parser, and unknown tokens are silently ignored, so the result is
the default configuration. -/
theorem spec_c7_default_equiv (C : Type) [Inhabited C]
    (input : List String) :
    Parser.default C =
      Parser.new (Inhabited.default : C) (fun config _ => config) ∧
    (Parser.default C).parse input =
      (Parser.new (Inhabited.default : C)
        (fun config _ => config)).parse input ∧
    (Parser.default C).parse input = (Inhabited.default : C) :=
  ⟨rfl, rfl, foldl_parseStep_nil input Inhabited.default⟩

/-- C8: parse is total and never stops early: processing a concatenation
continues from the intermediate configuration, and an unregistered token
is routed to the fallback, after which iteration continues to the end of
the sequence. -/
theorem spec_c8_total {C : Type} (p : Parser C) (xs ys : List String)
    (t : String) (h : getArg p.arguments t = none) :
    p.parse (xs ++ ys) =
      Parser.parse { p with config := p.parse xs } ys ∧
    p.parse (xs ++ t :: ys) =
      Parser.parse { p with config := p.unknown (p.parse xs) t } ys := by
  have hstep : ∀ c, parseStep p.arguments p.unknown c t = p.unknown c t := by
    intro c
    unfold parseStep
    rw [h]
  constructor
  · unfold Parser.parse
    rw [List.foldl_append]
  · unfold Parser.parse
    rw [List.foldl_append, List.foldl_cons, hstep]

/-- Witness for C8 on a concrete parser and unregistered token. -/
theorem spec_c8_total_witness :
    sampleParser.parse (["-a"] ++ ["-y"]) =
      Parser.parse { sampleParser with
        config := sampleParser.parse ["-a"] } ["-y"] ∧
    sampleParser.parse (["-a"] ++ "-z" :: ["-y"]) =
      Parser.parse { sampleParser with
        config := sampleParser.unknown (sampleParser.parse ["-a"]) "-z" }
        ["-y"] :=
  spec_c8_total sampleParser ["-a"] ["-y"] "-z" rfl

/-- C9: parse is deterministic: it depends only on the initial
configuration, the key-to-callback lookup, the fallback, and the input
order, not on how or in what order the table was populated. -/
theorem spec_c9_deterministic {C : Type} (p q : Parser C)
    (input : List String) (hc : p.config = q.config)
    (hargs : ∀ k, getArg p.arguments k = getArg q.arguments k)
    (hu : ∀ c s, p.unknown c s = q.unknown c s) :
    p.parse input = q.parse input := by
  unfold Parser.parse
  rw [hc]
  exact parse_congr p.arguments q.arguments p.unknown q.unknown hargs hu
    input q.config

/-- Witness for C9: two tables holding the same bindings in different
internal orders parse identically. -/
theorem spec_c9_deterministic_witness :
    parserAB.parse ["a", "b", "c"] = parserBA.parse ["a", "b", "c"] :=
  spec_c9_deterministic parserAB parserBA ["a", "b", "c"] rfl
    getArg_tableAB_eq (fun _ _ => rfl)

/-- C10: `arg` changes only the registration for its own key: the stored
configuration and the fallback are unchanged, and every other key's
binding is unchanged. -/
theorem spec_c10_arg_frame {C : Type} (p : Parser C) (k : String)
    (f : C → C) (q : String) (hq : q ≠ k) :
    (p.arg k f).config = p.config ∧
    (p.arg k f).unknown = p.unknown ∧
    getArg (p.arg k f).arguments q = getArg p.arguments q := by
  refine ⟨rfl, rfl, ?_⟩
  show getArg (insertArg p.arguments k f) q = getArg p.arguments q
  rw [getArg_insertArg, if_neg hq]

/-- Witness for C10 at concrete keys. -/
theorem spec_c10_arg_frame_witness :
    (sampleParser.arg "-b" bumpFive).config = sampleParser.config ∧
    (sampleParser.arg "-b" bumpFive).unknown = sampleParser.unknown ∧
    getArg (sampleParser.arg "-b" bumpFive).arguments "-a" =
      getArg sampleParser.arguments "-a" :=
  spec_c10_arg_frame sampleParser "-b" bumpFive "-a" (by decide)
